import Mathlib

/-!
A verification development for the digit-guesser numeric engine: the dense
`Matrix` container (core/matrix.ts), the neural layer and network built on it
(neural/function.ts, neural/network.ts) and the random-index utility
(neural/math.ts). Matrix entries are modelled as rationals; an activation
function is the `generate`/`derivative` pair of scalar maps the source
dispatches on. Randomness is modelled by an explicit stream of unit-interval
samples (one per `Math.random()` call) together with a fuel bound for the
one loop whose termination depends on the drawn values.
-/

namespace DigitGuesser

/-- The dense 2-D container of core/matrix.ts: a row count, a column count and
a flat row-major buffer; element (row, col) lives at offset
`row * columns + col`. -/
structure Matrix where
  rows : Nat
  columns : Nat
  data : List ℚ
deriving DecidableEq, Repr

instance : Inhabited Matrix := ⟨⟨0, 0, []⟩⟩

/-- The `size` getter: `rows * columns`. -/
def Matrix.size (m : Matrix) : Nat := m.rows * m.columns

/-- A fresh `new Matrix(rows, columns)` whose buffer was then written by
`fill(callback)`: the row-major loop writes every offset of the buffer once,
with the callback's value at the offset's row/column decomposition. -/
def Matrix.ofFn (rows columns : Nat) (f : Nat → Nat → ℚ) : Matrix :=
  ⟨rows, columns, (List.range (rows * columns)).map fun o => f (o / columns) (o % columns)⟩

/-- `new Matrix(rows, columns)`: buffer of length `rows * columns`, zeroed. -/
def Matrix.new (rows columns : Nat) : Matrix :=
  Matrix.ofFn rows columns fun _ _ => 0

/-- `at(row, column)!` as used by the arithmetic loops, whose indices are
natural numbers within bounds: the buffer entry at offset
`row * columns + column` (the default 0 is never reached by those loops). -/
def Matrix.at! (m : Matrix) (row column : Nat) : ℚ :=
  m.data.getD (row * m.columns + column) 0

/-- An in-place `set(row, column, value)` at the natural-number indices the
crossover/mutation loops use: writes the buffer at offset
`row * columns + column` (a write past the end changes nothing, exactly as
the typed-array store behaves; the loops stay within bounds). -/
def Matrix.setAt (m : Matrix) (row column : Nat) (value : ℚ) : Matrix :=
  { m with data := m.data.set (row * m.columns + column) value }

/-- `map(callback)`: a new matrix of identical shape holding the callback of
each entry, its row and its column. -/
def Matrix.map (m : Matrix) (f : ℚ → Nat → Nat → ℚ) : Matrix :=
  Matrix.ofFn m.rows m.columns fun row column => f (m.at! row column) row column

/-- `add(matrix)`: elementwise sum, shaped like the receiver. -/
def Matrix.add (m other : Matrix) : Matrix :=
  m.map fun value row column => value + other.at! row column

/-- `subtract(matrix)`: elementwise difference, shaped like the receiver. -/
def Matrix.subtract (m other : Matrix) : Matrix :=
  m.map fun value row column => value - other.at! row column

/-- `multiply(matrix)`: fails when `this.columns != matrix.rows`, otherwise
the (rows × matrix.columns) matrix of row-by-column dot products. -/
def Matrix.multiply (m other : Matrix) : Except String Matrix :=
  if m.columns ≠ other.rows then
    .error "unable to multiply the given matrices"
  else
    .ok (Matrix.ofFn m.rows other.columns fun row column =>
      ((List.range m.columns).map fun index => m.at! row index * other.at! index column).sum)

/-- `transpose()`: the (columns × rows) matrix with entry (r, c) read from the
receiver's (c, r). -/
def Matrix.transpose (m : Matrix) : Matrix :=
  Matrix.ofFn m.columns m.rows fun row column => m.at! column row

/-- `fromArray(array)` at the default single column: `array.length` rows, one
column, filled from the array by flat offset. -/
def Matrix.fromArray (array : List ℚ) : Matrix :=
  Matrix.ofFn array.length 1 fun row column => array.getD (row * 1 + column) 0

/-- Static `getRow(matrix, offset)`: integer division of the flat offset by
the column count. -/
def Matrix.getRow (m : Matrix) (offset : Nat) : Nat :=
  offset / m.columns

/-- Static `getColumn(matrix, offset)`: the flat offset minus `getRow`
rescaled, i.e. the remainder of the row/column decomposition. -/
def Matrix.getColumn (m : Matrix) (offset : Nat) : Nat :=
  offset - Matrix.getRow m offset * m.columns

/-- Static `getOffset(matrix, row, column)` over signed indices (the public
`get`/`set` entry points may receive negative arguments; `Math.trunc` is the
identity on integers): `row * columns + column`. -/
def Matrix.getOffset (m : Matrix) (row column : ℤ) : ℤ :=
  row * m.columns + column

/-- An indexed read of the typed-array buffer: the element when the offset is
a valid index, and the absent value (`undefined`) otherwise. -/
def Matrix.readAt (m : Matrix) (offset : ℤ) : Option ℚ :=
  if 0 ≤ offset ∧ offset < (m.data.length : ℤ) then some (m.data.getD offset.toNat 0)
  else none

/-- An indexed write of the typed-array buffer: stores at a valid offset and
silently changes nothing otherwise (the typed-array out-of-range store is a
no-op). -/
def Matrix.writeAt (m : Matrix) (offset : ℤ) (value : ℚ) : Matrix :=
  if 0 ≤ offset ∧ offset < (m.data.length : ℤ) then
    { m with data := m.data.set offset.toNat value }
  else m

/-- `get(row, column)`: `#assertOffset` rejects a flat offset at or past the
buffer length, and otherwise the buffer is read at the offset (an absent
value when the offset is negative). -/
def Matrix.get (m : Matrix) (row column : ℤ) : Except String (Option ℚ) :=
  let offset := m.getOffset row column
  if offset ≥ (m.data.length : ℤ) then .error "matrix offset is out of bounds"
  else .ok (m.readAt offset)

/-- `set(row, column, value)`: `#assertOffset` rejects a flat offset at or
past the buffer length; otherwise the previous value at the offset is
returned alongside the updated matrix (a negative offset reads the absent
value and stores nothing). -/
def Matrix.set (m : Matrix) (row column : ℤ) (value : ℚ) :
    Except String (Option ℚ × Matrix) :=
  let offset := m.getOffset row column
  if offset ≥ (m.data.length : ℤ) then .error "matrix offset is out of bounds"
  else .ok (m.readAt offset, m.writeAt offset value)

/-- The activation interface of neural/function.ts: a `generate` scalar map
and its `derivative`; the concrete variants fill the two fields in. -/
structure NeuralFunction where
  generate : ℚ → ℚ
  derivative : ℚ → ℚ

/-- neural/functions/linear.ts: `generate` scales its input, `derivative` is
the constant scale. -/
def NeuralLinearFunction (scale : ℚ) : NeuralFunction :=
  ⟨fun value => value * scale, fun _ => scale⟩

/-- A neural layer (neural/function.ts): input/output neuron counts, an
activation function, a weight matrix and a bias column. -/
structure NeuralLayer where
  input : Nat
  output : Nat
  activation : NeuralFunction
  weight : Matrix
  bias : Matrix

instance : Inhabited NeuralLayer :=
  ⟨⟨0, 0, ⟨id, id⟩, default, default⟩⟩

/-- The NeuralLayer constructor: weight `(input × output)` and bias
`(input × 1)`, both zero-initialised (`Math.trunc` is the identity on the
natural-number neuron counts). -/
def NeuralLayer.new (input output : Nat) (activation : NeuralFunction) : NeuralLayer :=
  ⟨input, output, activation, Matrix.new input output, Matrix.new input 1⟩

/-- `process(input)`: the activation applied elementwise over
`weight · input + bias`; a width mismatch surfaces as the multiply failure. -/
def NeuralLayer.process (l : NeuralLayer) (input : Matrix) : Except String Matrix := do
  let product ← l.weight.multiply input
  .ok ((product.add l.bias).map fun value _ _ => l.activation.generate value)

/-- `adjust(layer, weight, bias)`: replaces the layer's weight by
`weight + weightDelta` and its bias by `bias + biasDelta`. -/
def NeuralLayer.adjust (layer : NeuralLayer) (weight bias : Matrix) : NeuralLayer :=
  { layer with weight := layer.weight.add weight, bias := layer.bias.add bias }

/-- A neural network (neural/network.ts): the layer sequence, the default
activation function and the learning rate. -/
structure NeuralNetwork where
  layers : List NeuralLayer
  activation : NeuralFunction
  rate : ℚ

/-- `#initialize(layers)`: walks the size list keeping the previous entry,
and for every entry after the first pushes `new NeuralLayer(neurons, last)`. -/
def NeuralNetwork.initLoop (activation : NeuralFunction) :
    Option Nat → List Nat → List NeuralLayer
  | _, [] => []
  | none, neurons :: rest => NeuralNetwork.initLoop activation (some neurons) rest
  | some last, neurons :: rest =>
      NeuralLayer.new neurons last activation :: NeuralNetwork.initLoop activation (some neurons) rest

/-- The NeuralNetwork constructor at explicit rate and activation. -/
def NeuralNetwork.create (sizes : List Nat) (rate : ℚ) (activation : NeuralFunction) :
    NeuralNetwork :=
  ⟨NeuralNetwork.initLoop activation none sizes, activation, rate⟩

/-- The loop of `#processAll`: feeds each layer the previous result and
collects every layer's output. -/
def NeuralNetwork.processAllGo : Matrix → List NeuralLayer → Except String (List Matrix)
  | _, [] => .ok []
  | result, layer :: rest => do
      let next ← layer.process result
      let outs ← NeuralNetwork.processAllGo next rest
      .ok (next :: outs)

/-- `#processAll(input)`: the input as a column matrix followed by every
layer's activation output. -/
def NeuralNetwork.processAll (n : NeuralNetwork) (input : List ℚ) :
    Except String (List Matrix) := do
  let first := Matrix.fromArray input
  let outs ← NeuralNetwork.processAllGo first n.layers
  .ok (first :: outs)

/-- `predict(input)`: the flattened values of the last `#processAll` output. -/
def NeuralNetwork.predict (n : NeuralNetwork) (input : List ℚ) :
    Except String (List ℚ) := do
  let output ← n.processAll input
  .ok (output.getD (output.length - 1) default).data

/-- `#hadamardMultiply(first, second)`: elementwise product via `map`. -/
def NeuralNetwork.hadamardMultiply (first second : Matrix) : Matrix :=
  first.map fun value row column => value * second.at! row column

/-- `#scalarMultiply(input, value)`: every entry scaled by the value. -/
def NeuralNetwork.scalarMultiply (input : Matrix) (value : ℚ) : Matrix :=
  input.map fun current _ _ => current * value

/-- `#gradientDescent(input, errors)`: the learning rate times the Hadamard
product of the derivative image of the input with the errors. -/
def NeuralNetwork.gradientDescent (activation : NeuralFunction) (rate : ℚ)
    (input errors : Matrix) : Matrix :=
  NeuralNetwork.scalarMultiply
    (NeuralNetwork.hadamardMultiply (input.map fun value _ _ => activation.derivative value)
      errors)
    rate

/-- The backward loop of `train`, running the source's `index` from
`output.length - 1` down to 1 (the pattern `index + 1` is the source index):
bias delta by gradient descent at `output[index]`, weight delta against the
transposed `output[index - 1]`, the layer adjusted, and past the input
boundary the errors propagated through the updated weight. -/
def NeuralNetwork.trainLoop (activation : NeuralFunction) (rate : ℚ) (output : List Matrix) :
    Nat → List NeuralLayer → Matrix → Except String (List NeuralLayer)
  | 0, layers, _ => .ok layers
  | index + 1, layers, errors => do
      let layer := layers.getD index default
      let bias := NeuralNetwork.gradientDescent activation rate (output.getD (index + 1) default) errors
      let weight ← bias.multiply (output.getD index default).transpose
      let layer' := NeuralLayer.adjust layer weight bias
      let layers' := layers.set index layer'
      if 0 < index then do
        let errors' ← layer'.weight.transpose.multiply errors
        NeuralNetwork.trainLoop activation rate output index layers' errors'
      else
        .ok layers'

/-- `train(input, expect)`: the forward pass, the initial errors
`expect − finalOutput`, then the backward loop over all layers. -/
def NeuralNetwork.train (n : NeuralNetwork) (input expect : List ℚ) :
    Except String NeuralNetwork := do
  let output ← n.processAll input
  let errors := (Matrix.fromArray expect).subtract (output.getD (output.length - 1) default)
  let layers' ← NeuralNetwork.trainLoop n.activation n.rate output (output.length - 1) n.layers errors
  .ok { n with layers := layers' }

/-- `Math.trunc` on a rational: rounding toward zero. -/
def mathTrunc (q : ℚ) : ℤ :=
  if q < 0 then -⌊-q⌋ else ⌊q⌋

/-- `NeuralMath.random(min, max)` applied to the sample `r` the call drew
from `Math.random()`: `r * (max - min) + min`. -/
def NeuralMath.random (min max r : ℚ) : ℚ :=
  r * (max - min) + min

/-- A JS `Set.add` followed by spreading into an array: insertion order is
kept and a value already present changes nothing. -/
def insertValue (values : List ℤ) (v : ℤ) : List ℤ :=
  if v ∈ values then values else values ++ [v]

/-- The do-while loop of `NeuralMath.randomSet`: draw `random(min, max)`,
truncate, add to the set, and continue while the set is smaller than the
requested size. `stream` supplies the `Math.random()` samples from position
`k` on; the result carries the next unread position. The loop has no bound of
its own, so it is run on explicit fuel: `none` means the fuel ran out with
the set still short. -/
def NeuralMath.randomSetLoop (min max : ℚ) (size : Nat) (stream : ℕ → ℚ) :
    ℕ → ℕ → List ℤ → Option (List ℤ × ℕ)
  | _, 0, _ => none
  | k, fuel + 1, values =>
      let number := NeuralMath.random min max (stream k)
      let values := insertValue values (mathTrunc number)
      if values.length < size then NeuralMath.randomSetLoop min max size stream (k + 1) fuel values
      else some (values, k + 1)

/-- `NeuralMath.randomSet(min, max, size)`: the do-while loop started on an
empty set. -/
def NeuralMath.randomSet (min max : ℚ) (size : Nat) (stream : ℕ → ℚ) (k fuel : ℕ) :
    Option (List ℤ × ℕ) :=
  NeuralMath.randomSetLoop min max size stream k fuel []

/-- `#crossWeight(target, source1, source2)`: the two-pointer walk of the
flattened weight space, `offset1` from the front and `offset2` from the back,
inclusive of the midpoint. Each offset is decomposed into row/column through
the owning matrix's column count; parent1's front value and parent2's back
value are read, and written crosswise into the target at those two
positions. Every offset stays below `size`, so the throwing `get`/`set` of
the source are within bounds throughout. -/
def NeuralLayer.crossWeightStep (source1 source2 : Matrix) (size : Nat) (t : Matrix)
    (offset1 : Nat) : Matrix :=
  let offset2 := size - 1 - offset1
  let row1 := Matrix.getRow source1 offset1
  let row2 := Matrix.getRow source2 offset2
  let column1 := Matrix.getColumn source1 offset1
  let column2 := Matrix.getColumn source2 offset2
  let value1 := source1.at! row1 column1
  let value2 := source2.at! row2 column2
  (t.setAt row1 column1 value2).setAt row2 column2 value1

def NeuralLayer.crossWeight (target source1 source2 : Matrix) : Matrix :=
  let size := target.size
  let half := size / 2
  (List.range (half + 1)).foldl (NeuralLayer.crossWeightStep source1 source2 size) target

/-- `#crossBias(target, source1, source2)`: the same two-pointer walk over
the bias rows (column 0 of a single-column matrix), exclusive of the
midpoint. -/
def NeuralLayer.crossBiasStep (source1 source2 : Matrix) (size : Nat) (t : Matrix)
    (row1 : Nat) : Matrix :=
  let row2 := size - 1 - row1
  let value1 := source1.at! row1 0
  let value2 := source2.at! row2 0
  (t.setAt row1 0 value2).setAt row2 0 value1

def NeuralLayer.crossBias (target source1 source2 : Matrix) : Matrix :=
  let size := target.size
  let half := size / 2
  (List.range half).foldl (NeuralLayer.crossBiasStep source1 source2 size) target

/-- `fromCrossover(layer1, layer2)`: a fresh layer of layer1's shape and
activation whose bias and weight receive the crossover of the parents'. -/
def NeuralLayer.fromCrossover (layer1 layer2 : NeuralLayer) : NeuralLayer :=
  let result := NeuralLayer.new layer1.input layer1.output layer1.activation
  let bias' := NeuralLayer.crossBias result.bias layer1.bias layer2.bias
  let weight' := NeuralLayer.crossWeight result.weight layer1.weight layer2.weight
  { result with bias := bias', weight := weight' }

/-- `fill` with a generator callback that draws one `Math.random()` sample
per cell in row-major order (the generators of `randomize` ignore the cell's
row and column): the buffer is rebuilt from stream positions `k` onward and
the next unread position is returned. -/
def Matrix.fillGen (m : Matrix) (g : ℕ → ℚ) (k : ℕ) : Matrix × ℕ :=
  (Matrix.ofFn m.rows m.columns fun row column => g (k + (row * m.columns + column)),
   k + m.size)

/-- `randomize(layer, min, max)`: bias then weight refilled with fresh
uniform values in `[min, max)`. -/
def NeuralLayer.randomize (layer : NeuralLayer) (min max : ℚ) (stream : ℕ → ℚ) (k : ℕ) :
    NeuralLayer × ℕ :=
  let (bias', k1) := layer.bias.fillGen (fun j => NeuralMath.random min max (stream j)) k
  let (weight', k2) := layer.weight.fillGen (fun j => NeuralMath.random min max (stream j)) k1
  ({ layer with weight := weight', bias := bias' }, k2)

/-- `#mutateWeight(weight, min, max, rate)`: draws `round(size · rate)`
distinct flat indices from `randomSet(0, size - 1, …)`, then adds a fresh
`random(min, max)` to the entry at each index's row/column decomposition
(the indices are truncations of nonnegative draws, hence nonnegative). -/
def NeuralLayer.mutateWeightStep (min max : ℚ) (stream : ℕ → ℚ) (acc : Matrix × ℕ)
    (index : ℤ) : Matrix × ℕ :=
  let (w, kk) := acc
  let row := Matrix.getRow w index.toNat
  let column := Matrix.getColumn w index.toNat
  let random := NeuralMath.random min max (stream kk)
  let current := w.at! row column
  (w.setAt row column (current + random), kk + 1)

def NeuralLayer.mutateWeight (weight : Matrix) (min max rate : ℚ) (stream : ℕ → ℚ)
    (k fuel : ℕ) : Option (Matrix × ℕ) := do
  let size := (round ((weight.size : ℚ) * rate)).toNat
  let (indexes, k1) ← NeuralMath.randomSet 0 ((weight.size : ℚ) - 1) size stream k fuel
  let result := indexes.foldl (NeuralLayer.mutateWeightStep min max stream) (weight, k1)
  some result

/-- `#mutateBias(target, min, max, rate)`: the same draw over the bias flat
space, each selected row of the single-column bias perturbed in place. -/
def NeuralLayer.mutateBiasStep (min max : ℚ) (stream : ℕ → ℚ) (acc : Matrix × ℕ)
    (index : ℤ) : Matrix × ℕ :=
  let (b, kk) := acc
  let random := NeuralMath.random min max (stream kk)
  let current := b.at! index.toNat 0
  (b.setAt index.toNat 0 (current + random), kk + 1)

def NeuralLayer.mutateBias (target : Matrix) (min max rate : ℚ) (stream : ℕ → ℚ)
    (k fuel : ℕ) : Option (Matrix × ℕ) := do
  let size := (round ((target.size : ℚ) * rate)).toNat
  let (indexes, k1) ← NeuralMath.randomSet 0 ((target.size : ℚ) - 1) size stream k fuel
  let result := indexes.foldl (NeuralLayer.mutateBiasStep min max stream) (target, k1)
  some result

/-- `mutate(layer, min, max, rate)`: the weight mutation followed by the bias
mutation, threading the random stream. -/
def NeuralLayer.mutate (layer : NeuralLayer) (min max rate : ℚ) (stream : ℕ → ℚ)
    (k fuel : ℕ) : Option (NeuralLayer × ℕ) := do
  let (weight', k1) ← NeuralLayer.mutateWeight layer.weight min max rate stream k fuel
  let (bias', k2) ← NeuralLayer.mutateBias layer.bias min max rate stream k1 fuel
  some ({ layer with weight := weight', bias := bias' }, k2)

/-- `process` with the receiver threaded explicitly: the method body only
reads the layer's fields and builds new matrices, so the layer leaves the
call as it entered it. -/
def NeuralLayer.processM (l : NeuralLayer) (input : Matrix) :
    Except String Matrix × NeuralLayer :=
  (l.process input, l)

/-- The `#processAll` loop with every receiver threaded explicitly, to state
the frame property of `predict`: the layer list as the calls leave it is
returned next to the outputs. -/
def NeuralNetwork.processAllM :
    Matrix → List NeuralLayer → Except String (List Matrix) × List NeuralLayer
  | _, [] => (.ok [], [])
  | result, layer :: rest =>
      match NeuralLayer.processM layer result with
      | (.error e, layer') => (.error e, layer' :: rest)
      | (.ok next, layer') =>
          match NeuralNetwork.processAllM next rest with
          | (.error e, rest') => (.error e, layer' :: rest')
          | (.ok outs, rest') => (.ok (next :: outs), layer' :: rest')

/-- `predict(input)` with the receiver threaded explicitly: the outputs of
the forward pass next to the network as the call leaves it. -/
def NeuralNetwork.predictM (n : NeuralNetwork) (input : List ℚ) :
    Except String (List ℚ) × NeuralNetwork :=
  match NeuralNetwork.processAllM (Matrix.fromArray input) n.layers with
  | (.error e, layers') => (.error e, { n with layers := layers' })
  | (.ok outs, layers') =>
      let output := Matrix.fromArray input :: outs
      (.ok (output.getD (output.length - 1) default).data, { n with layers := layers' })

/-! Basic facts about the embedded matrix operations. -/

theorem Matrix.ofFn_rows (rows columns : Nat) (f : Nat → Nat → ℚ) :
    (Matrix.ofFn rows columns f).rows = rows := rfl

theorem Matrix.ofFn_columns (rows columns : Nat) (f : Nat → Nat → ℚ) :
    (Matrix.ofFn rows columns f).columns = columns := rfl

theorem Matrix.ofFn_data_length (rows columns : Nat) (f : Nat → Nat → ℚ) :
    (Matrix.ofFn rows columns f).data.length = rows * columns := by
  simp [Matrix.ofFn]

theorem Matrix.at!_ofFn (rows columns : Nat) (f : Nat → Nat → ℚ) (r c : Nat)
    (hr : r < rows) (hc : c < columns) :
    (Matrix.ofFn rows columns f).at! r c = f r c := by
  have hcpos : 0 < columns := by omega
  have hoff : r * columns + c < rows * columns := by
    calc r * columns + c < r * columns + columns := by omega
    _ = (r + 1) * columns := by ring
    _ ≤ rows * columns := Nat.mul_le_mul_right _ (by omega)
  have hdiv : (r * columns + c) / columns = r := by
    rw [Nat.add_comm, Nat.add_mul_div_right _ _ hcpos, Nat.div_eq_of_lt hc, Nat.zero_add]
  have hmod : (r * columns + c) % columns = c := by
    rw [Nat.add_comm, Nat.add_mul_mod_self_right, Nat.mod_eq_of_lt hc]
  simp only [Matrix.at!, Matrix.ofFn, Matrix.ofFn_columns]
  rw [List.getD_eq_getElem?_getD, List.getElem?_map, List.getElem?_range hoff]
  simp [hdiv, hmod]

theorem Matrix.data_getD_ofFn (rows columns : Nat) (f : Nat → Nat → ℚ) (o : Nat)
    (ho : o < rows * columns) :
    (Matrix.ofFn rows columns f).data.getD o 0 = f (o / columns) (o % columns) := by
  simp only [Matrix.ofFn]
  rw [List.getD_eq_getElem?_getD, List.getElem?_map, List.getElem?_range ho]
  rfl

theorem Matrix.at!_eq_data_getD (m : Matrix) (r c : Nat) :
    m.at! r c = m.data.getD (r * m.columns + c) 0 := rfl

theorem sum_map_range_eq (f : ℕ → ℚ) (n : ℕ) :
    ((List.range n).map f).sum = ∑ i ∈ Finset.range n, f i := by
  induction n with
  | zero => simp
  | succ k ih => simp [List.range_succ, Finset.sum_range_succ, ih]

/-- C8 --- transpose involution: for every matrix (with the buffer-length
class invariant), `transpose(transpose(M))` equals `M`, and `transpose(M)`
has shape (columns × rows) with entry (c, r) equal to `M`'s entry (r, c). -/
theorem Matrix.transpose_transpose (m : Matrix)
    (hlen : m.data.length = m.rows * m.columns) :
    m.transpose.transpose = m ∧
    m.transpose.rows = m.columns ∧ m.transpose.columns = m.rows ∧
    ∀ r c, r < m.rows → c < m.columns → m.transpose.at! c r = m.at! r c := by
  refine ⟨?_, rfl, rfl, fun r c hr hc => Matrix.at!_ofFn m.columns m.rows _ c r hc hr⟩
  obtain ⟨R, C, d⟩ := m
  change d.length = R * C at hlen
  have hmk : ∀ (rows columns : Nat) (x y : List ℚ), x = y →
      Matrix.mk rows columns x = Matrix.mk rows columns y := by
    intro rows columns x y h
    rw [h]
  show (Matrix.ofFn R C fun row column =>
      (Matrix.ofFn C R fun row' column' => (Matrix.mk R C d).at! column' row').at! column row) =
    Matrix.mk R C d
  show Matrix.mk R C _ = Matrix.mk R C d
  apply hmk
  apply List.ext_getElem
  · simp [hlen]
  intro o h1 h2
  have ho : o < R * C := by simpa using h1
  have hC : 0 < C := by
    rcases Nat.eq_zero_or_pos C with h0 | hpos
    · subst h0
      omega
    · exact hpos
  have hdivlt : o / C < R := Nat.div_lt_of_lt_mul (by rw [Nat.mul_comm] at ho; exact ho)
  have hmodlt : o % C < C := Nat.mod_lt _ hC
  rw [List.getElem_map, List.getElem_range]
  show (Matrix.ofFn C R fun row' column' => (Matrix.mk R C d).at! column' row').at! (o % C) (o / C) = d[o]
  rw [Matrix.at!_ofFn C R _ _ _ hmodlt hdivlt]
  show Matrix.at! ⟨R, C, d⟩ (o / C) (o % C) = d[o]
  rw [Matrix.at!_eq_data_getD]
  show d.getD (o / C * C + o % C) 0 = d[o]
  rw [Nat.div_add_mod' o C, List.getD_eq_getElem d 0 h2]

/-- Witness for C8 at a concrete 2 × 3 matrix. -/
theorem transpose_transpose_witness :
    (Matrix.mk 2 3 [1, 2, 3, 4, 5, 6]).transpose.transpose = Matrix.mk 2 3 [1, 2, 3, 4, 5, 6] :=
  (Matrix.transpose_transpose ⟨2, 3, [1, 2, 3, 4, 5, 6]⟩ (by decide)).1

/-- C5 --- multiply: the dimension-mismatch condition is raised exactly when
the receiver's column count differs from the argument's row count, and
otherwise the result has shape (R1 × C2) with entry (r, c) the dot product
of row r of the receiver with column c of the argument. -/
theorem Matrix.multiply_dot_product (A B : Matrix) :
    (A.columns ≠ B.rows → A.multiply B = .error "unable to multiply the given matrices") ∧
    (A.columns = B.rows →
      ∃ P, A.multiply B = .ok P ∧ P.rows = A.rows ∧ P.columns = B.columns ∧
        ∀ r c, r < A.rows → c < B.columns →
          P.at! r c = ∑ i ∈ Finset.range A.columns, A.at! r i * B.at! i c) := by
  constructor
  · intro hne
    simp [Matrix.multiply, hne]
  · intro heq
    refine ⟨Matrix.ofFn A.rows B.columns fun row column =>
        ((List.range A.columns).map fun index => A.at! row index * B.at! index column).sum,
      ?_, rfl, rfl, ?_⟩
    · simp [Matrix.multiply, heq]
    · intro r c hr hc
      rw [Matrix.at!_ofFn _ _ _ _ _ hr hc]
      exact sum_map_range_eq _ _

/-- Witness for C5: a 2 × 2 by 2 × 1 product succeeds with the dot-product
entries, and a 2 × 2 by 1 × 1 product raises the mismatch condition. -/
theorem multiply_dot_product_witness :
    (Matrix.mk 2 2 [1, 2, 3, 4]).multiply (Matrix.mk 1 1 [5]) =
      .error "unable to multiply the given matrices" ∧
    ∃ P, (Matrix.mk 2 2 [1, 2, 3, 4]).multiply (Matrix.mk 2 1 [5, 6]) = .ok P ∧
      P.rows = 2 ∧ P.columns = 1 ∧
      ∀ r c, r < 2 → c < 1 →
        P.at! r c = ∑ i ∈ Finset.range 2,
          (Matrix.mk 2 2 [1, 2, 3, 4]).at! r i * (Matrix.mk 2 1 [5, 6]).at! i c :=
  ⟨(Matrix.multiply_dot_product ⟨2, 2, [1, 2, 3, 4]⟩ ⟨1, 1, [5]⟩).1 (by decide),
   (Matrix.multiply_dot_product ⟨2, 2, [1, 2, 3, 4]⟩ ⟨2, 1, [5, 6]⟩).2 rfl⟩

/-- C6 --- get/set bounds: both raise the out-of-bounds condition exactly on
a flat offset at or past the buffer length (the erroring `set` yields no
matrix, so nothing is modified); at an in-bounds offset `set` stores the new
value and returns the previously stored one. -/
theorem Matrix.get_set_bounds (m : Matrix) (row column : ℤ) (value : ℚ) :
    (m.getOffset row column ≥ (m.data.length : ℤ) →
      m.get row column = .error "matrix offset is out of bounds" ∧
      m.set row column value = .error "matrix offset is out of bounds") ∧
    (0 ≤ m.getOffset row column → m.getOffset row column < (m.data.length : ℤ) →
      m.get row column = .ok (some (m.data.getD (m.getOffset row column).toNat 0)) ∧
      m.set row column value =
        .ok (some (m.data.getD (m.getOffset row column).toNat 0),
          { m with data := m.data.set (m.getOffset row column).toNat value })) := by
  constructor
  · intro hge
    constructor
    · simp [Matrix.get, hge]
    · simp [Matrix.set, hge]
  · intro hnonneg hlt
    have hnge : ¬ m.getOffset row column ≥ (m.data.length : ℤ) := by omega
    constructor
    · simp [Matrix.get, hnge, Matrix.readAt, hnonneg, hlt]
    · simp [Matrix.set, hnge, Matrix.readAt, Matrix.writeAt, hnonneg, hlt]

/-- Witness for C6 on a 2 × 2 matrix: offset 5 raises, offset 2 reads the
previous value 3 and stores 9. -/
theorem get_set_bounds_witness :
    ((Matrix.mk 2 2 [1, 2, 3, 4]).getOffset 2 1 ≥ ((Matrix.mk 2 2 [1, 2, 3, 4]).data.length : ℤ) →
      (Matrix.mk 2 2 [1, 2, 3, 4]).get 2 1 = .error "matrix offset is out of bounds" ∧
      (Matrix.mk 2 2 [1, 2, 3, 4]).set 2 1 9 = .error "matrix offset is out of bounds") ∧
    ((Matrix.mk 2 2 [1, 2, 3, 4]).get 1 0 = .ok (some 3) ∧
      (Matrix.mk 2 2 [1, 2, 3, 4]).set 1 0 9 = .ok (some 3, Matrix.mk 2 2 [1, 2, 9, 4])) :=
  ⟨(Matrix.get_set_bounds ⟨2, 2, [1, 2, 3, 4]⟩ 2 1 9).1,
   (Matrix.get_set_bounds ⟨2, 2, [1, 2, 3, 4]⟩ 1 0 9).2 (by decide) (by decide)⟩

/-- C9 --- the bounds check is one-sided: a negative computed flat offset is
not rejected; `get` returns the absent value and `set` stores nothing,
returning the matrix unchanged. -/
theorem Matrix.negative_offset_no_raise (m : Matrix) (row column : ℤ) (value : ℚ)
    (hneg : m.getOffset row column < 0) :
    m.get row column = .ok none ∧ m.set row column value = .ok (none, m) := by
  have hnge : ¬ m.getOffset row column ≥ (m.data.length : ℤ) := by
    have : (0 : ℤ) ≤ (m.data.length : ℤ) := Int.ofNat_nonneg _
    omega
  have hread : m.readAt (m.getOffset row column) = none := by
    simp only [Matrix.readAt]
    rw [if_neg]
    omega
  have hwrite : m.writeAt (m.getOffset row column) value = m := by
    simp only [Matrix.writeAt]
    rw [if_neg]
    omega
  constructor
  · simp [Matrix.get, hnge, hread]
  · simp [Matrix.set, hnge, hread, hwrite]

/-- Witness for C9: row -1, column 0 of a 2 × 2 matrix computes offset -2. -/
theorem negative_offset_no_raise_witness :
    (Matrix.mk 2 2 [1, 2, 3, 4]).get (-1) 0 = .ok none ∧
    (Matrix.mk 2 2 [1, 2, 3, 4]).set (-1) 0 9 = .ok (none, Matrix.mk 2 2 [1, 2, 3, 4]) :=
  Matrix.negative_offset_no_raise ⟨2, 2, [1, 2, 3, 4]⟩ (-1) 0 9 (by decide)

/-! Shape preservation of the in-place operations. -/

theorem Matrix.setAt_rows (m : Matrix) (r c : Nat) (v : ℚ) : (m.setAt r c v).rows = m.rows := rfl

theorem Matrix.setAt_columns (m : Matrix) (r c : Nat) (v : ℚ) :
    (m.setAt r c v).columns = m.columns := rfl

theorem Matrix.foldl_pres_rows {α : Type} (g : Matrix → α → Matrix)
    (hg : ∀ t a, (g t a).rows = t.rows) :
    ∀ (xs : List α) (t : Matrix), (xs.foldl g t).rows = t.rows
  | [], _ => rfl
  | x :: xs, t => by
      rw [List.foldl_cons, Matrix.foldl_pres_rows g hg xs, hg]

theorem Matrix.foldl_pres_columns {α : Type} (g : Matrix → α → Matrix)
    (hg : ∀ t a, (g t a).columns = t.columns) :
    ∀ (xs : List α) (t : Matrix), (xs.foldl g t).columns = t.columns
  | [], _ => rfl
  | x :: xs, t => by
      rw [List.foldl_cons, Matrix.foldl_pres_columns g hg xs, hg]

theorem NeuralLayer.crossWeight_rows (target source1 source2 : Matrix) :
    (NeuralLayer.crossWeight target source1 source2).rows = target.rows :=
  Matrix.foldl_pres_rows (NeuralLayer.crossWeightStep source1 source2 target.size)
    (fun _ _ => rfl) (List.range (target.size / 2 + 1)) target

theorem NeuralLayer.crossBias_rows (target source1 source2 : Matrix) :
    (NeuralLayer.crossBias target source1 source2).rows = target.rows :=
  Matrix.foldl_pres_rows (NeuralLayer.crossBiasStep source1 source2 target.size)
    (fun _ _ => rfl) (List.range (target.size / 2)) target

theorem mutFoldl_pres_rows (g : (Matrix × ℕ) → ℤ → (Matrix × ℕ))
    (hg : ∀ p a, ((g p a).1).rows = p.1.rows) :
    ∀ (xs : List ℤ) (p : Matrix × ℕ), ((xs.foldl g p).1).rows = p.1.rows
  | [], _ => rfl
  | x :: xs, p => by
      rw [List.foldl_cons, mutFoldl_pres_rows g hg xs, hg]

theorem NeuralLayer.mutateWeight_rows (weight : Matrix) (mn mx rate : ℚ) (stream : ℕ → ℚ)
    (k fuel : ℕ) (w' : Matrix) (k' : ℕ)
    (h : NeuralLayer.mutateWeight weight mn mx rate stream k fuel = some (w', k')) :
    w'.rows = weight.rows := by
  rw [NeuralLayer.mutateWeight] at h
  rcases hr : NeuralMath.randomSet 0 ((weight.size : ℚ) - 1)
      ((round ((weight.size : ℚ) * rate)).toNat) stream k fuel with _ | p
  · rw [hr] at h
    simp at h
  · rcases p with ⟨indexes, k1⟩
    rw [hr] at h
    simp only [Option.bind_eq_bind, Option.some_bind, Option.some.injEq] at h
    have h3 : ((indexes.foldl (NeuralLayer.mutateWeightStep mn mx stream) (weight, k1)).1).rows =
        weight.rows :=
      mutFoldl_pres_rows (NeuralLayer.mutateWeightStep mn mx stream) (fun _ _ => rfl)
        indexes (weight, k1)
    rw [h] at h3
    exact h3

theorem NeuralLayer.mutateBias_rows (target : Matrix) (mn mx rate : ℚ) (stream : ℕ → ℚ)
    (k fuel : ℕ) (b' : Matrix) (k' : ℕ)
    (h : NeuralLayer.mutateBias target mn mx rate stream k fuel = some (b', k')) :
    b'.rows = target.rows := by
  rw [NeuralLayer.mutateBias] at h
  rcases hr : NeuralMath.randomSet 0 ((target.size : ℚ) - 1)
      ((round ((target.size : ℚ) * rate)).toNat) stream k fuel with _ | p
  · rw [hr] at h
    simp at h
  · rcases p with ⟨indexes, k1⟩
    rw [hr] at h
    simp only [Option.bind_eq_bind, Option.some_bind, Option.some.injEq] at h
    have h3 : ((indexes.foldl (NeuralLayer.mutateBiasStep mn mx stream) (target, k1)).1).rows =
        target.rows :=
      mutFoldl_pres_rows (NeuralLayer.mutateBiasStep mn mx stream) (fun _ _ => rfl)
        indexes (target, k1)
    rw [h] at h3
    exact h3

/-- The layer shape invariant of the spec: the weight and the bias have the
layer's input-neuron count as their row count. -/
def LayerInv (l : NeuralLayer) : Prop :=
  l.weight.rows = l.input ∧ l.bias.rows = l.input

/-- C7 --- the invariant `weight.rows == bias.rows == N_in` holds after
construction and is preserved by randomize, adjust, fromCrossover and (when
its index-selection loop terminates) mutate. -/
theorem NeuralLayer.shape_invariant :
    (∀ input output activation, LayerInv (NeuralLayer.new input output activation)) ∧
    (∀ l mn mx stream k, LayerInv l → LayerInv (NeuralLayer.randomize l mn mx stream k).1) ∧
    (∀ l w b, LayerInv l → LayerInv (NeuralLayer.adjust l w b)) ∧
    (∀ l1 l2, LayerInv (NeuralLayer.fromCrossover l1 l2)) ∧
    (∀ l mn mx rate stream k fuel l' k', LayerInv l →
      NeuralLayer.mutate l mn mx rate stream k fuel = some (l', k') → LayerInv l') := by
  refine ⟨fun input output activation => ⟨rfl, rfl⟩, ?_, ?_, ?_, ?_⟩
  · intro l mn mx stream k hl
    exact ⟨hl.1, hl.2⟩
  · intro l w b hl
    exact ⟨hl.1, hl.2⟩
  · intro l1 l2
    constructor
    · exact NeuralLayer.crossWeight_rows ..
    · exact NeuralLayer.crossBias_rows ..
  · intro l mn mx rate stream k fuel l' k' hl hmut
    rw [NeuralLayer.mutate] at hmut
    rcases hw : NeuralLayer.mutateWeight l.weight mn mx rate stream k fuel with _ | pw
    · rw [hw] at hmut
      simp at hmut
    · rcases pw with ⟨w', kw⟩
      rw [hw] at hmut
      simp only [Option.bind_eq_bind, Option.some_bind] at hmut
      rcases hb : NeuralLayer.mutateBias l.bias mn mx rate stream kw fuel with _ | pb
      · rw [hb] at hmut
        simp at hmut
      · rcases pb with ⟨b', kb⟩
        rw [hb] at hmut
        simp only [Option.bind_eq_bind, Option.some_bind, Option.some.injEq] at hmut
        have hl' : { l with weight := w', bias := b' } = l' := congrArg Prod.fst hmut
        subst hl'
        constructor
        · show w'.rows = l.input
          rw [NeuralLayer.mutateWeight_rows l.weight mn mx rate stream k fuel w' kw hw]
          exact hl.1
        · show b'.rows = l.input
          rw [NeuralLayer.mutateBias_rows l.bias mn mx rate stream kw fuel b' kb hb]
          exact hl.2

/-- Witness for C7 at concrete layers: construction, randomize, adjust,
crossover, and a terminating mutate run on a 1 × 1 layer. -/
theorem shape_invariant_witness :
    LayerInv (NeuralLayer.new 2 3 (NeuralLinearFunction 1)) ∧
    LayerInv (NeuralLayer.randomize (NeuralLayer.new 2 3 (NeuralLinearFunction 1)) 0 1
      (fun _ => 1/2) 0).1 ∧
    LayerInv (NeuralLayer.adjust (NeuralLayer.new 2 3 (NeuralLinearFunction 1))
      (Matrix.new 2 3) (Matrix.new 2 1)) ∧
    LayerInv (NeuralLayer.fromCrossover (NeuralLayer.new 2 3 (NeuralLinearFunction 1))
      (NeuralLayer.new 2 3 (NeuralLinearFunction 1))) ∧
    LayerInv { NeuralLayer.new 1 1 (NeuralLinearFunction 1) with
      weight := ⟨1, 1, [11/2]⟩, bias := ⟨1, 1, [11/2]⟩ } := by
  refine ⟨NeuralLayer.shape_invariant.1 2 3 (NeuralLinearFunction 1),
    NeuralLayer.shape_invariant.2.1 _ 0 1 (fun _ => 1/2) 0 ⟨rfl, rfl⟩,
    NeuralLayer.shape_invariant.2.2.1 _ (Matrix.new 2 3) (Matrix.new 2 1) ⟨rfl, rfl⟩,
    NeuralLayer.shape_invariant.2.2.2.1 _ _, ?_⟩
  exact NeuralLayer.shape_invariant.2.2.2.2 (NeuralLayer.new 1 1 (NeuralLinearFunction 1))
    5 6 1 (fun _ => 1/2) 0 2 _ 4 ⟨rfl, rfl⟩ (by with_unfolding_all rfl)

/-! C3: the crossover loops against the spec's flat two-pointer rule. -/

/-- From the spec's words: one step of the two-pointer walk over the
flattened parameter space at front index `i` — the child's front position
receives parent2's back-position value and the child's back position
receives parent1's front-position value. -/
def twoPointerStep (s1 s2 : List ℚ) (size : Nat) (t : List ℚ) (i : Nat) : List ℚ :=
  (t.set i (s2.getD (size - 1 - i) 0)).set (size - 1 - i) (s1.getD i 0)

/-- From the spec's words: the two-pointer walk run for front indices
`0, …, steps - 1` over a child buffer. -/
def twoPointerWalk (s1 s2 : List ℚ) (size steps : Nat) (child : List ℚ) : List ℚ :=
  (List.range steps).foldl (twoPointerStep s1 s2 size) child

theorem Matrix.getRow_mul_add_getColumn (m : Matrix) (offset : Nat) :
    Matrix.getRow m offset * m.columns + Matrix.getColumn m offset = offset := by
  have h := Nat.div_mul_le_self offset m.columns
  simp only [Matrix.getRow, Matrix.getColumn]
  omega

theorem Matrix.at!_decomposed (m : Matrix) (offset : Nat) :
    m.at! (Matrix.getRow m offset) (Matrix.getColumn m offset) = m.data.getD offset 0 := by
  rw [Matrix.at!_eq_data_getD, Matrix.getRow_mul_add_getColumn]

theorem Matrix.setAt_decomposed_data (s t : Matrix) (offset : Nat) (v : ℚ)
    (h : s.columns = t.columns) :
    (t.setAt (Matrix.getRow s offset) (Matrix.getColumn s offset) v).data =
      t.data.set offset v := by
  show t.data.set (Matrix.getRow s offset * t.columns + Matrix.getColumn s offset) v =
    t.data.set offset v
  rw [← h]
  rw [Matrix.getRow_mul_add_getColumn]

theorem NeuralLayer.crossWeightStep_data (s1 s2 : Matrix) (size : Nat) (t : Matrix)
    (offset1 : Nat) (h1 : s1.columns = t.columns) (h2 : s2.columns = t.columns) :
    (NeuralLayer.crossWeightStep s1 s2 size t offset1).data =
      twoPointerStep s1.data s2.data size t.data offset1 := by
  show ((t.setAt (Matrix.getRow s1 offset1) (Matrix.getColumn s1 offset1)
      (s2.at! (Matrix.getRow s2 (size - 1 - offset1)) (Matrix.getColumn s2 (size - 1 - offset1)))).setAt
      (Matrix.getRow s2 (size - 1 - offset1)) (Matrix.getColumn s2 (size - 1 - offset1))
      (s1.at! (Matrix.getRow s1 offset1) (Matrix.getColumn s1 offset1))).data =
    twoPointerStep s1.data s2.data size t.data offset1
  rw [Matrix.setAt_decomposed_data s2 _ _ _ (by rw [h2]; rfl)]
  rw [Matrix.setAt_decomposed_data s1 t _ _ h1]
  rw [Matrix.at!_decomposed, Matrix.at!_decomposed]
  rfl

theorem NeuralLayer.crossBiasStep_data (s1 s2 : Matrix) (size : Nat) (t : Matrix)
    (row1 : Nat) (h1 : s1.columns = 1) (h2 : s2.columns = 1) (ht : t.columns = 1) :
    (NeuralLayer.crossBiasStep s1 s2 size t row1).data =
      twoPointerStep s1.data s2.data size t.data row1 := by
  show ((t.setAt row1 0 (s2.at! (size - 1 - row1) 0)).setAt (size - 1 - row1) 0
      (s1.at! row1 0)).data =
    twoPointerStep s1.data s2.data size t.data row1
  show ((t.setAt row1 0 (s2.at! (size - 1 - row1) 0)).data.set
      ((size - 1 - row1) * (t.setAt row1 0 (s2.at! (size - 1 - row1) 0)).columns + 0)
      (s1.at! row1 0)) =
    twoPointerStep s1.data s2.data size t.data row1
  show ((t.data.set (row1 * t.columns + 0) (s2.at! (size - 1 - row1) 0)).set
      ((size - 1 - row1) * t.columns + 0) (s1.at! row1 0)) =
    twoPointerStep s1.data s2.data size t.data row1
  rw [ht]
  rw [Matrix.at!_eq_data_getD, Matrix.at!_eq_data_getD, h1, h2]
  simp [twoPointerStep]

theorem NeuralLayer.crossWeight_walk (s1 s2 : Matrix) (size : Nat) (C : Nat)
    (h1 : s1.columns = C) (h2 : s2.columns = C) :
    ∀ (xs : List Nat) (t : Matrix), t.columns = C →
      (xs.foldl (NeuralLayer.crossWeightStep s1 s2 size) t).data =
        xs.foldl (twoPointerStep s1.data s2.data size) t.data
  | [], _, _ => rfl
  | x :: xs, t, ht => by
      rw [List.foldl_cons, List.foldl_cons]
      rw [NeuralLayer.crossWeight_walk s1 s2 size C h1 h2 xs
        (NeuralLayer.crossWeightStep s1 s2 size t x) ht]
      rw [NeuralLayer.crossWeightStep_data s1 s2 size t x (h1.trans ht.symm) (h2.trans ht.symm)]

theorem NeuralLayer.crossBias_walk (s1 s2 : Matrix) (size : Nat)
    (h1 : s1.columns = 1) (h2 : s2.columns = 1) :
    ∀ (xs : List Nat) (t : Matrix), t.columns = 1 →
      (xs.foldl (NeuralLayer.crossBiasStep s1 s2 size) t).data =
        xs.foldl (twoPointerStep s1.data s2.data size) t.data
  | [], _, _ => rfl
  | x :: xs, t, ht => by
      rw [List.foldl_cons, List.foldl_cons]
      rw [NeuralLayer.crossBias_walk s1 s2 size h1 h2 xs
        (NeuralLayer.crossBiasStep s1 s2 size t x) ht]
      rw [NeuralLayer.crossBiasStep_data s1 s2 size t x h1 h2 ht]

/-- C3 --- crossover follows the two-pointer rule over the flattened
parameter space: for parents of identical shape, the child's weight buffer
is the walk over front indices `[0, size/2]` (midpoint included) and the
child's bias buffer is the walk over `[0, size/2)` (midpoint excluded), each
step writing parent2's back value at the front position and parent1's front
value at the back position; the weight offsets pass through the row/column
decomposition, which the walk equality shows is flat-offset faithful. -/
theorem NeuralLayer.fromCrossover_two_pointer (layer1 layer2 : NeuralLayer)
    (hw1 : layer1.weight.columns = layer1.output)
    (hw2 : layer2.weight.columns = layer1.output)
    (hb1 : layer1.bias.columns = 1) (hb2 : layer2.bias.columns = 1) :
    (NeuralLayer.fromCrossover layer1 layer2).weight.data =
      twoPointerWalk layer1.weight.data layer2.weight.data (layer1.input * layer1.output)
        (layer1.input * layer1.output / 2 + 1)
        (Matrix.new layer1.input layer1.output).data ∧
    (NeuralLayer.fromCrossover layer1 layer2).bias.data =
      twoPointerWalk layer1.bias.data layer2.bias.data (layer1.input * 1)
        (layer1.input * 1 / 2) (Matrix.new layer1.input 1).data := by
  constructor
  · show (NeuralLayer.crossWeight (Matrix.new layer1.input layer1.output)
        layer1.weight layer2.weight).data = _
    exact NeuralLayer.crossWeight_walk layer1.weight layer2.weight
      (layer1.input * layer1.output) layer1.output hw1 hw2 _
      (Matrix.new layer1.input layer1.output) rfl
  · show (NeuralLayer.crossBias (Matrix.new layer1.input 1)
        layer1.bias layer2.bias).data = _
    exact NeuralLayer.crossBias_walk layer1.bias layer2.bias
      (layer1.input * 1) hb1 hb2 _ (Matrix.new layer1.input 1) rfl

/-- Witness for C3 at concrete 2 × 2 parents. -/
theorem fromCrossover_two_pointer_witness :
    (NeuralLayer.fromCrossover
        ⟨2, 2, NeuralLinearFunction 1, ⟨2, 2, [10, 11, 12, 13]⟩, ⟨2, 1, [1, 2]⟩⟩
        ⟨2, 2, NeuralLinearFunction 1, ⟨2, 2, [20, 21, 22, 23]⟩, ⟨2, 1, [3, 4]⟩⟩).weight.data =
      twoPointerWalk [10, 11, 12, 13] [20, 21, 22, 23] 4 3 (Matrix.new 2 2).data ∧
    (NeuralLayer.fromCrossover
        ⟨2, 2, NeuralLinearFunction 1, ⟨2, 2, [10, 11, 12, 13]⟩, ⟨2, 1, [1, 2]⟩⟩
        ⟨2, 2, NeuralLinearFunction 1, ⟨2, 2, [20, 21, 22, 23]⟩, ⟨2, 1, [3, 4]⟩⟩).bias.data =
      twoPointerWalk [1, 2] [3, 4] 2 1 (Matrix.new 2 1).data :=
  NeuralLayer.fromCrossover_two_pointer
    ⟨2, 2, NeuralLinearFunction 1, ⟨2, 2, [10, 11, 12, 13]⟩, ⟨2, 1, [1, 2]⟩⟩
    ⟨2, 2, NeuralLinearFunction 1, ⟨2, 2, [20, 21, 22, 23]⟩, ⟨2, 1, [3, 4]⟩⟩
    rfl rfl rfl rfl

/-! C4: the index-selection loop cannot fill a two-element set from a
two-element flat index space, because `random(0, size - 1)` draws from the
half-open interval and its truncation never reaches the top index. -/

theorem mathTrunc_unit_interval (q : ℚ) (h0 : 0 ≤ q) (h1 : q < 1) : mathTrunc q = 0 := by
  rw [mathTrunc, if_neg (not_lt.mpr h0)]
  exact Int.floor_eq_zero_iff.mpr ⟨h0, h1⟩

theorem NeuralMath.randomSetLoop_unit_stuck (stream : ℕ → ℚ)
    (hstream : ∀ j, 0 ≤ stream j ∧ stream j < 1) :
    ∀ (fuel k : ℕ) (values : List ℤ), values = [] ∨ values = [0] →
      NeuralMath.randomSetLoop 0 1 2 stream k fuel values = none
  | 0, _, _, _ => rfl
  | fuel + 1, k, values, hv => by
      rw [NeuralMath.randomSetLoop]
      have hrand : NeuralMath.random 0 1 (stream k) = stream k := by
        rw [NeuralMath.random]
        ring
      have htrunc : mathTrunc (NeuralMath.random 0 1 (stream k)) = 0 := by
        rw [hrand]
        exact mathTrunc_unit_interval _ (hstream k).1 (hstream k).2
      rw [htrunc]
      rcases hv with hv | hv
      · subst hv
        show NeuralMath.randomSetLoop 0 1 2 stream (k + 1) fuel (insertValue [] 0) = none
        exact NeuralMath.randomSetLoop_unit_stuck stream hstream fuel (k + 1) _ (Or.inr rfl)
      · subst hv
        show NeuralMath.randomSetLoop 0 1 2 stream (k + 1) fuel (insertValue [0] 0) = none
        exact NeuralMath.randomSetLoop_unit_stuck stream hstream fuel (k + 1) _ (Or.inr (by rfl))

/-- C4 --- the failing run behind the mutation-cardinality claim: on a
weight of flat size 2 with mutation rate 1, `round(size · rate) = 2` distinct
indices are requested from `randomSet(0, 1, 2)`, but the truncation of a
uniform draw in `[0, 1)` is always 0, so the set never reaches two elements
and the mutation never terminates — no fuel bound suffices, for any sample
stream. -/
theorem NeuralLayer.mutateWeight_rate_one_diverges (w : Matrix) (hw : w.size = 2)
    (mn mx : ℚ) (stream : ℕ → ℚ) (hstream : ∀ j, 0 ≤ stream j ∧ stream j < 1)
    (k fuel : ℕ) :
    NeuralLayer.mutateWeight w mn mx 1 stream k fuel = none := by
  rw [NeuralLayer.mutateWeight, hw]
  have h2 : (round (((2 : ℕ) : ℚ) * 1)).toNat = 2 := by
    have hr : round (((2 : ℕ) : ℚ) * 1) = 2 := by norm_num
    rw [hr]
    rfl
  have h1 : (((2 : ℕ) : ℚ) - 1) = 1 := by norm_num
  rw [h2, h1, NeuralMath.randomSet,
    NeuralMath.randomSetLoop_unit_stuck stream hstream fuel k [] (Or.inl rfl)]
  rfl

/-- Witness for C4's divergence theorem at a concrete 1 × 2 weight, the
constant sample stream 1/2 and fuel 3. -/
theorem mutateWeight_rate_one_diverges_witness :
    NeuralLayer.mutateWeight ⟨1, 2, [0, 0]⟩ 0 1 1 (fun _ => 1/2) 0 3 = none :=
  NeuralLayer.mutateWeight_rate_one_diverges ⟨1, 2, [0, 0]⟩ rfl 0 1 (fun _ => 1/2)
    (fun _ => ⟨by norm_num, by norm_num⟩) 0 3

/-! C10: the forward pass threads every receiver through unchanged. -/

theorem exceptOkBind {α β : Type} (a : α) (f : α → Except String β) :
    (Except.ok a >>= f) = f a := rfl

theorem NeuralNetwork.processAllM_eq :
    ∀ (layers : List NeuralLayer) (input : Matrix),
      NeuralNetwork.processAllM input layers =
        (NeuralNetwork.processAllGo input layers, layers)
  | [], _ => rfl
  | layer :: rest, input => by
      rw [NeuralNetwork.processAllM, NeuralNetwork.processAllGo]
      rcases hp : layer.process input with e | next
      · simp only [NeuralLayer.processM, hp]
        rfl
      · simp only [NeuralLayer.processM, hp]
        rw [NeuralNetwork.processAllM_eq rest next]
        rcases hgo : NeuralNetwork.processAllGo next rest with e | outs
        · simp only [exceptOkBind, hgo]
          try rfl
        · simp only [exceptOkBind, hgo]
          try rfl

/-- C10 --- predict is a pure observer of the network: with every receiver
threaded explicitly through the call, the network returned by `predictM`
(its layer list — so every layer's weight and bias — its learning rate and
its default activation) is the network that entered the call, and the value
computed agrees with the direct reading of `predict`. -/
theorem NeuralNetwork.predict_pure_observer (n : NeuralNetwork) (input : List ℚ) :
    (n.predictM input).2 = n ∧ (n.predictM input).1 = n.predict input := by
  rw [NeuralNetwork.predictM, NeuralNetwork.predict, NeuralNetwork.processAll]
  rw [NeuralNetwork.processAllM_eq n.layers (Matrix.fromArray input)]
  rcases hgo : NeuralNetwork.processAllGo (Matrix.fromArray input) n.layers with e | outs
  · exact ⟨rfl, rfl⟩
  · exact ⟨rfl, rfl⟩

/-! C2: the forward pass is well-formed along the size list. -/

theorem Matrix.multiply_ok (a b : Matrix) (h : a.columns = b.rows) :
    a.multiply b = .ok (Matrix.ofFn a.rows b.columns fun r c =>
      ((List.range a.columns).map fun i => a.at! r i * b.at! i c).sum) := by
  simp [Matrix.multiply, h]

theorem NeuralLayer.process_ok (l : NeuralLayer) (m : Matrix)
    (h : l.weight.columns = m.rows) :
    ∃ r, l.process m = .ok r ∧ r.rows = l.weight.rows ∧ r.columns = m.columns ∧
      r.data.length = l.weight.rows * m.columns := by
  rw [NeuralLayer.process, Matrix.multiply_ok _ _ h]
  simp only [exceptOkBind]
  exact ⟨_, rfl, rfl, rfl, Matrix.ofFn_data_length _ _ _⟩

/-- The shape a layer holding widths (prev → s) has: weight (s × prev) and
bias (s × 1), exactly what the constructor `new NeuralLayer(s, prev)`
produces. -/
def LayerShapedAt (l : NeuralLayer) (prev s : Nat) : Prop :=
  l.weight.rows = s ∧ l.weight.columns = prev ∧ l.bias.rows = s ∧ l.bias.columns = 1

/-- The layer chain of a network built from the size list `prev :: ss`. -/
def LayersShaped : Nat → List NeuralLayer → List Nat → Prop
  | _, [], [] => True
  | prev, l :: ls, s :: rest => LayerShapedAt l prev s ∧ LayersShaped s ls rest
  | _, [], _ :: _ => False
  | _, _ :: _, [] => False

/-- A column matrix of the given height. -/
def ColShaped (m : Matrix) (s : Nat) : Prop :=
  m.rows = s ∧ m.columns = 1 ∧ m.data.length = s

theorem NeuralNetwork.initLoop_shaped (act : NeuralFunction) :
    ∀ (ss : List Nat) (prev : Nat),
      LayersShaped prev (NeuralNetwork.initLoop act (some prev) ss) ss
  | [], _ => trivial
  | s :: rest, prev => ⟨⟨rfl, rfl, rfl, rfl⟩, NeuralNetwork.initLoop_shaped act rest s⟩

theorem NeuralNetwork.processAllGo_shapes :
    ∀ (ls : List NeuralLayer) (ss : List Nat) (prev : Nat) (m : Matrix),
      LayersShaped prev ls ss → m.rows = prev → m.columns = 1 →
      ∃ outs, NeuralNetwork.processAllGo m ls = .ok outs ∧ List.Forall₂ ColShaped outs ss
  | [], [], _, _, _, _, _ => ⟨[], rfl, List.Forall₂.nil⟩
  | [], _ :: _, _, _, hsh, _, _ => False.elim hsh
  | _ :: _, [], _, _, hsh, _, _ => False.elim hsh
  | l :: ls, s :: rest, prev, m, hsh, hr, hc => by
      obtain ⟨hlay, hrest⟩ := hsh
      have hcol : l.weight.columns = m.rows := by rw [hlay.2.1, hr]
      obtain ⟨r, hpr, hrows, hcols, hlen⟩ := NeuralLayer.process_ok l m hcol
      have hrS : r.rows = s := by rw [hrows, hlay.1]
      have hcS : r.columns = 1 := by rw [hcols, hc]
      have hlenS : r.data.length = s := by rw [hlen, hc, hlay.1, Nat.mul_one]
      obtain ⟨outs, hgo, hfa⟩ :=
        NeuralNetwork.processAllGo_shapes ls rest s r hrest hrS hcS
      refine ⟨r :: outs, ?_, List.Forall₂.cons ⟨hrS, hcS, hlenS⟩ hfa⟩
      rw [NeuralNetwork.processAllGo, hpr]
      simp only [exceptOkBind]
      rw [hgo]
      rfl

theorem colShaped_getD (outs : List Matrix) (ss : List Nat)
    (h : List.Forall₂ ColShaped outs ss) (i : Nat) (hi : i < outs.length) :
    ColShaped (outs.getD i default) (ss.getD i 0) := by
  have hlen := h.length_eq
  have hi2 : i < ss.length := by omega
  have hg := (List.forall₂_iff_get.mp h).2 i hi hi2
  have h1 : outs.getD i default = outs.get ⟨i, hi⟩ := by
    simp [List.getD_eq_getElem?_getD, List.getElem?_eq_getElem hi]
  have h2 : ss.getD i 0 = ss.get ⟨i, hi2⟩ := by
    simp [List.getD_eq_getElem?_getD, List.getElem?_eq_getElem hi2]
  rw [h1, h2]
  exact hg

theorem getLast_eq_getD (l : List Nat) (h : l ≠ []) :
    l.getLast h = l.getD (l.length - 1) 0 := by
  have hlen : l.length - 1 < l.length := by
    cases l
    · simp at h
    · simp
  rw [List.getLast_eq_getElem, List.getD_eq_getElem?_getD, List.getElem?_eq_getElem hlen]
  rfl

/-- The forward pass of a shaped network succeeds and the outputs are column
matrices whose heights follow the tail of the size list. -/
theorem NeuralNetwork.processAll_ok (layers : List NeuralLayer) (act : NeuralFunction)
    (rate : ℚ) (s0 : Nat) (ss : List Nat) (input : List ℚ)
    (hshape : LayersShaped s0 layers ss) (hin : input.length = s0) :
    ∃ outs, NeuralNetwork.processAll ⟨layers, act, rate⟩ input =
        .ok (Matrix.fromArray input :: outs) ∧
      NeuralNetwork.processAllGo (Matrix.fromArray input) layers = .ok outs ∧
      List.Forall₂ ColShaped outs ss := by
  have hr : (Matrix.fromArray input).rows = s0 := hin
  obtain ⟨outs, hgo, hfa⟩ :=
    NeuralNetwork.processAllGo_shapes layers ss s0 (Matrix.fromArray input) hshape hr rfl
  refine ⟨outs, ?_, hgo, hfa⟩
  rw [NeuralNetwork.processAll, hgo]
  rfl

/-- C2 --- shape of predict: a network built from positive sizes
`[s0, …, sn]` (n ≥ 1), fed an input of length `s0`, predicts without failure
an output vector of length `sn`. -/
theorem NeuralNetwork.predict_output_width (s0 : Nat) (ss : List Nat) (rate : ℚ)
    (act : NeuralFunction) (input : List ℚ)
    (hpos : ∀ s ∈ s0 :: ss, 0 < s) (hne : ss ≠ []) (hin : input.length = s0) :
    ∃ out, (NeuralNetwork.create (s0 :: ss) rate act).predict input = .ok out ∧
      out.length = (s0 :: ss).getLast (List.cons_ne_nil s0 ss) := by
  obtain ⟨outs, hall, hgo, hfa⟩ := NeuralNetwork.processAll_ok
    (NeuralNetwork.initLoop act (some s0) ss) act rate s0 ss input
    (NeuralNetwork.initLoop_shaped act ss s0) hin
  have hlen : outs.length = ss.length := hfa.length_eq
  have houts_ne : outs.length ≠ 0 := by
    rw [hlen]
    intro h0
    exact hne (List.eq_nil_of_length_eq_zero h0)
  refine ⟨((Matrix.fromArray input :: outs).getD
      ((Matrix.fromArray input :: outs).length - 1) default).data, ?_, ?_⟩
  · show (NeuralNetwork.create (s0 :: ss) rate act).predict input = _
    rw [NeuralNetwork.predict]
    rw [show (NeuralNetwork.create (s0 :: ss) rate act).processAll input =
      NeuralNetwork.processAll ⟨NeuralNetwork.initLoop act (some s0) ss, act, rate⟩ input from rfl]
    rw [hall]
    rfl
  · have hidx : (Matrix.fromArray input :: outs).length - 1 = outs.length := by simp
    rw [hidx]
    obtain ⟨n, hn⟩ : ∃ n, outs.length = n + 1 := ⟨outs.length - 1, by omega⟩
    have hgetD : (Matrix.fromArray input :: outs).getD outs.length default =
        outs.getD n default := by
      rw [hn]
      rfl
    rw [hgetD]
    have hcs : ColShaped (outs.getD n default) (ss.getD n 0) :=
      colShaped_getD outs ss hfa n (by omega)
    rw [hcs.2.2]
    rw [List.getLast_cons hne, getLast_eq_getD ss hne, ← hlen, hn]
    simp

/-- Witness for C2: a [2, 3, 1] network with the linear activation on the
input [1, 0] predicts a length-1 output. -/
theorem predict_output_width_witness :
    ∃ out, (NeuralNetwork.create [2, 3, 1] (1/10) (NeuralLinearFunction 1)).predict [1, 0] =
        .ok out ∧
      out.length = ([2, 3, 1] : List Nat).getLast (by simp) :=
  NeuralNetwork.predict_output_width 2 [3, 1] (1/10) (NeuralLinearFunction 1) [1, 0]
    (by decide) (by decide) rfl

/-! C1: the backward loop of train against the spec's per-layer steps. -/

theorem Matrix.ofFn_congr (rows columns : Nat) (f g : Nat → Nat → ℚ)
    (h : ∀ r c, f r c = g r c) :
    Matrix.ofFn rows columns f = Matrix.ofFn rows columns g := by
  have hfg : f = g := funext fun r => funext fun c => h r c
  rw [hfg]

/-- From the spec's words: the elementwise sum of two equally-shaped
matrices. -/
def addSpec (a b : Matrix) : Matrix :=
  Matrix.ofFn a.rows a.columns fun r c => a.at! r c + b.at! r c

/-- From the spec's words: the Hadamard (elementwise) product. -/
def hadamardSpec (a b : Matrix) : Matrix :=
  Matrix.ofFn a.rows a.columns fun r c => a.at! r c * b.at! r c

/-- From the spec's words: the scalar multiple `q · a`. -/
def scalarSpec (q : ℚ) (a : Matrix) : Matrix :=
  Matrix.ofFn a.rows a.columns fun r c => q * a.at! r c

/-- From the spec's words: a scalar map applied elementwise. -/
def elementwiseSpec (f : ℚ → ℚ) (a : Matrix) : Matrix :=
  Matrix.ofFn a.rows a.columns fun r c => f (a.at! r c)

/-- From the spec's words: the matrix product (meaningful where the inner
dimensions agree). -/
def mulSpec (a b : Matrix) : Matrix :=
  Matrix.ofFn a.rows b.columns fun r c => ∑ i ∈ Finset.range a.columns, a.at! r i * b.at! i c

/-- From the spec's words: the transpose. -/
def transposeSpec (a : Matrix) : Matrix :=
  Matrix.ofFn a.columns a.rows fun r c => a.at! c r

theorem Matrix.add_eq_spec (a b : Matrix) : a.add b = addSpec a b := rfl

theorem Matrix.transpose_eq_spec (a : Matrix) : a.transpose = transposeSpec a := rfl

theorem Matrix.multiply_spec_ok (a b : Matrix) (h : a.columns = b.rows) :
    a.multiply b = .ok (mulSpec a b) := by
  rw [Matrix.multiply_ok a b h, mulSpec]
  have hfun : (fun r c => ((List.range a.columns).map fun i => a.at! r i * b.at! i c).sum) =
      fun r c => ∑ i ∈ Finset.range a.columns, a.at! r i * b.at! i c := by
    funext r c
    exact sum_map_range_eq _ _
  rw [hfun]

theorem NeuralNetwork.gradientDescent_eq (act : NeuralFunction) (rate : ℚ) (o e : Matrix) :
    NeuralNetwork.gradientDescent act rate o e =
      scalarSpec rate (hadamardSpec (elementwiseSpec act.derivative o) e) := by
  rw [NeuralNetwork.gradientDescent]
  have h1 : (o.map fun value _ _ => act.derivative value) = elementwiseSpec act.derivative o :=
    rfl
  have h2 : NeuralNetwork.hadamardMultiply (elementwiseSpec act.derivative o) e =
      hadamardSpec (elementwiseSpec act.derivative o) e := rfl
  rw [h1, h2]
  exact Matrix.ofFn_congr _ _ _ _ fun r c => mul_comm _ _

theorem NeuralLayer.adjust_eq_spec (layer : NeuralLayer) (w b : Matrix) :
    NeuralLayer.adjust layer w b =
      { layer with weight := addSpec layer.weight w, bias := addSpec layer.bias b } := rfl

/-- From the spec's words (train, backward walk): for each layer index from
the last down to the first, the bias delta is the learning rate times the
Hadamard product of the derivative image of `output[i]` with the current
error column; the weight delta is the bias delta times the transpose of
`output[i - 1]`; both deltas are added to the layer's weight and bias; and
the error is replaced by the transpose of the updated weight times the
error (computed here even at the input boundary, where it is unused). -/
def trainStepsSpec (act : NeuralFunction) (rate : ℚ) (output : List Matrix) :
    Nat → List NeuralLayer → Matrix → List NeuralLayer
  | 0, layers, _ => layers
  | index + 1, layers, error =>
      let layer := layers.getD index default
      let biasDelta := scalarSpec rate
        (hadamardSpec (elementwiseSpec act.derivative (output.getD (index + 1) default)) error)
      let weightDelta := mulSpec biasDelta (transposeSpec (output.getD index default))
      let layer' := { layer with weight := addSpec layer.weight weightDelta,
                                 bias := addSpec layer.bias biasDelta }
      let error' := mulSpec (transposeSpec layer'.weight) error
      trainStepsSpec act rate output index (layers.set index layer') error'

theorem layersShaped_length :
    ∀ (layers : List NeuralLayer) (ss : List Nat) (prev : Nat),
      LayersShaped prev layers ss → layers.length = ss.length
  | [], [], _, _ => rfl
  | [], _ :: _, _, h => False.elim h
  | _ :: _, [], _, h => False.elim h
  | _ :: ls, _ :: rest, _, h => by
      simpa using layersShaped_length ls rest _ h.2

theorem layersShaped_getD :
    ∀ (layers : List NeuralLayer) (ss : List Nat) (prev : Nat),
      LayersShaped prev layers ss → ∀ j, j < layers.length →
        LayerShapedAt (layers.getD j default) ((prev :: ss).getD j 0)
          ((prev :: ss).getD (j + 1) 0)
  | [], [], _, _, j, hj => absurd hj (by simp)
  | [], _ :: _, _, h, _, _ => False.elim h
  | _ :: _, [], _, h, _, _ => False.elim h
  | l :: ls, s :: rest, prev, h, 0, _ => by
      simpa using h.1
  | l :: ls, s :: rest, prev, h, j + 1, hj => by
      have hrec := layersShaped_getD ls rest s h.2 j (by simpa using hj)
      simpa using hrec

theorem getD_set_ne {α : Type} [Inhabited α] (l : List α) (i j : Nat) (a : α) (h : i ≠ j) :
    (l.set i a).getD j default = l.getD j default := by
  simp [List.getD_eq_getElem?_getD, List.getElem?_set_ne h]

/-- The backward loop of `train` computes, without raising any condition,
exactly the spec's per-layer steps, provided the outputs are the column
chain of a size list, the layers still to be visited are shaped by it, and
the error column has the width of the current index. -/
theorem NeuralNetwork.trainLoop_eq_spec (act : NeuralFunction) (rate : ℚ)
    (output : List Matrix) (dims : List Nat) (hout : List.Forall₂ ColShaped output dims) :
    ∀ (index : Nat) (layers : List NeuralLayer) (errors : Matrix),
      index < output.length →
      (∀ j, j < index →
        LayerShapedAt (layers.getD j default) (dims.getD j 0) (dims.getD (j + 1) 0)) →
      errors.rows = dims.getD index 0 → errors.columns = 1 →
      NeuralNetwork.trainLoop act rate output index layers errors =
        .ok (trainStepsSpec act rate output index layers errors)
  | 0, _, _, _, _, _, _ => rfl
  | index + 1, layers, errors, hidx, hlay, her, hec => by
      have hoi : ColShaped (output.getD (index + 1) default) (dims.getD (index + 1) 0) :=
        colShaped_getD output dims hout (index + 1) hidx
      have hom : ColShaped (output.getD index default) (dims.getD index 0) :=
        colShaped_getD output dims hout index (by omega)
      have hlk : LayerShapedAt (layers.getD index default) (dims.getD index 0)
          (dims.getD (index + 1) 0) := hlay index (Nat.lt_succ_self index)
      have hcond1 : (scalarSpec rate (hadamardSpec
          (elementwiseSpec act.derivative (output.getD (index + 1) default)) errors)).columns =
          (transposeSpec (output.getD index default)).rows := by
        show (output.getD (index + 1) default).columns = (output.getD index default).columns
        rw [hoi.2.1, hom.2.1]
      rw [NeuralNetwork.trainLoop, trainStepsSpec]
      simp only [NeuralNetwork.gradientDescent_eq, Matrix.transpose_eq_spec]
      rw [Matrix.multiply_spec_ok _ _ hcond1]
      simp only [exceptOkBind, NeuralLayer.adjust_eq_spec]
      rcases Nat.eq_zero_or_pos index with h0 | hpos
      · subst h0
        rw [if_neg (lt_irrefl 0)]
        rfl
      · rw [if_pos hpos]
        have hcond2 : (transposeSpec (addSpec (layers.getD index default).weight
            (mulSpec (scalarSpec rate (hadamardSpec
              (elementwiseSpec act.derivative (output.getD (index + 1) default)) errors))
              (transposeSpec (output.getD index default))))).columns = errors.rows := by
          show (layers.getD index default).weight.rows = errors.rows
          rw [hlk.1, her]
        rw [Matrix.multiply_spec_ok _ _ hcond2]
        simp only [exceptOkBind]
        exact NeuralNetwork.trainLoop_eq_spec act rate output dims hout index _ _
          (by omega)
          (fun j hj => by
            rw [getD_set_ne layers index j _ (by omega)]
            exact hlay j (by omega))
          (by
            show (layers.getD index default).weight.columns = dims.getD index 0
            exact hlk.2.1)
          (by
            show errors.columns = 1
            exact hec)

/-- C1 --- train performs exactly the claimed steps: for a network shaped by
a size list and an (input, expected) pair of matching widths, train raises
nothing, and its resulting layer list is the downward walk from the last
layer to the first in which each layer receives a bias delta
`rate · (derivative ∘ output[i] ⊙ error)`, a weight delta
`biasDelta · transpose(output[i-1])`, has both deltas added to its weight
and bias, and (except at the input boundary, where the value is unused) the
error is replaced by the transpose of the updated weight times the error. -/
theorem NeuralNetwork.train_backpropagation_steps (act : NeuralFunction) (rate : ℚ)
    (layers : List NeuralLayer) (s0 : Nat) (ss : List Nat) (input expect : List ℚ)
    (hshape : LayersShaped s0 layers ss) (hin : input.length = s0)
    (hexp : expect.length = (s0 :: ss).getLast (List.cons_ne_nil s0 ss)) :
    ∃ outs,
      NeuralNetwork.processAll ⟨layers, act, rate⟩ input =
        .ok (Matrix.fromArray input :: outs) ∧
      NeuralNetwork.train ⟨layers, act, rate⟩ input expect =
        .ok ⟨trainStepsSpec act rate (Matrix.fromArray input :: outs) outs.length layers
            ((Matrix.fromArray expect).subtract
              ((Matrix.fromArray input :: outs).getD outs.length default)), act, rate⟩ := by
  obtain ⟨outs, hall, hgo, hfa⟩ :=
    NeuralNetwork.processAll_ok layers act rate s0 ss input hshape hin
  have hfromlen : (Matrix.fromArray input).data.length = s0 := by
    rw [show (Matrix.fromArray input).data.length = input.length * 1 from
      Matrix.ofFn_data_length _ _ _, Nat.mul_one, hin]
  have houtfa : List.Forall₂ ColShaped (Matrix.fromArray input :: outs) (s0 :: ss) :=
    List.Forall₂.cons ⟨hin, rfl, hfromlen⟩ hfa
  have hlen : outs.length = ss.length := hfa.length_eq
  have herr_rows : ((Matrix.fromArray expect).subtract
      ((Matrix.fromArray input :: outs).getD outs.length default)).rows =
      (s0 :: ss).getD outs.length 0 := by
    show expect.length = (s0 :: ss).getD outs.length 0
    rw [hexp, getLast_eq_getD]
    congr 1
    simp [hlen]
  have hidx : outs.length < (Matrix.fromArray input :: outs).length := by simp
  have hloop := NeuralNetwork.trainLoop_eq_spec act rate (Matrix.fromArray input :: outs)
    (s0 :: ss) houtfa outs.length layers
    ((Matrix.fromArray expect).subtract
      ((Matrix.fromArray input :: outs).getD outs.length default))
    hidx
    (fun j hj => by
      have hjl : j < layers.length := by
        rw [layersShaped_length layers ss s0 hshape]
        omega
      exact layersShaped_getD layers ss s0 hshape j hjl)
    herr_rows rfl
  refine ⟨outs, hall, ?_⟩
  rw [NeuralNetwork.train]
  rw [show ({ layers := layers, activation := act, rate := rate } :
    NeuralNetwork).processAll input = NeuralNetwork.processAll ⟨layers, act, rate⟩ input from rfl]
  rw [hall]
  simp only [exceptOkBind]
  have hlen1 : (Matrix.fromArray input :: outs).length - 1 = outs.length := by simp
  rw [hlen1, hloop]
  rfl

/-- Witness for C1: a [1, 1] network with the linear activation, trained
once on ([1], [0]). -/
theorem train_backpropagation_steps_witness :
    ∃ outs,
      NeuralNetwork.processAll ⟨[NeuralLayer.new 1 1 (NeuralLinearFunction 1)],
          NeuralLinearFunction 1, 1/10⟩ [1] = .ok (Matrix.fromArray [1] :: outs) ∧
      NeuralNetwork.train ⟨[NeuralLayer.new 1 1 (NeuralLinearFunction 1)],
          NeuralLinearFunction 1, 1/10⟩ [1] [0] =
        .ok ⟨trainStepsSpec (NeuralLinearFunction 1) (1/10) (Matrix.fromArray [1] :: outs)
            outs.length [NeuralLayer.new 1 1 (NeuralLinearFunction 1)]
            ((Matrix.fromArray [0]).subtract
              ((Matrix.fromArray [1] :: outs).getD outs.length default)),
          NeuralLinearFunction 1, 1/10⟩ :=
  NeuralNetwork.train_backpropagation_steps (NeuralLinearFunction 1) (1/10)
    [NeuralLayer.new 1 1 (NeuralLinearFunction 1)] 1 [1] [1] [0]
    ⟨⟨rfl, rfl, rfl, rfl⟩, trivial⟩ rfl (by decide)

end DigitGuesser
